import Mathlib

/-!
Verification development for the `review_pr.js` script of the
`ai-secure-code-review-action` repository (the GitLeaks-integrated version of
the script, whose helpers are `isBinaryOrLarge`, `hasRiskyExt`,
`trimPatchLines`, `listChangedFiles`, `loadGitLeaksFindings`,
`summarizeGitLeaks`, `buildUserMessage`, `callOpenAI`, `upsertPRComment` and
`run`).

The JavaScript code is shallowly embedded: strings are Lean `String`s, the
JavaScript `String.prototype.split` / `Array.prototype.join` pair with a
single-character separator is implemented character-by-character
(`splitOnChar` / `joinWithChar`), nullable values become `Option`, network
responses become explicit data passed to the embedded functions, and the
effectful pipeline is modelled as functions producing explicit event lists or
`Except` results.
-/

/-- JavaScript `s.split(sep)` for a single-character separator, on the
character list of the string.  `split` always yields at least one (possibly
empty) field. -/
def splitOnChar (sep : Char) : List Char → List (List Char)
  | [] => [[]]
  | c :: cs =>
    if c = sep then [] :: splitOnChar sep cs
    else
      match splitOnChar sep cs with
      | [] => [[c]]
      | l :: ls => (c :: l) :: ls

/-- JavaScript `parts.join(sep)` for a single-character separator, on
character lists. -/
def joinWithChar (sep : Char) : List (List Char) → List Char
  | [] => []
  | [x] => x
  | x :: y :: xs => x ++ sep :: joinWithChar sep (y :: xs)

/-- JavaScript `s.split("\n")` lifted to Lean strings. -/
def splitNl (s : String) : List String :=
  (splitOnChar '\n' s.data).map (fun cs => String.mk cs)

/-- JavaScript `parts.join("\n")` lifted to Lean strings. -/
def joinNl (xs : List String) : String :=
  String.mk (joinWithChar '\n' (xs.map String.data))

/-- JavaScript `s.startsWith(pre)`. -/
def jsStartsWith (s pre : String) : Bool :=
  List.isPrefixOf pre.data s.data

/-- Substring containment on character lists (JavaScript `hay.includes(needle)`). -/
def containsSeq : List Char → List Char → Bool
  | [], needle => needle.isEmpty
  | c :: t, needle => List.isPrefixOf needle (c :: t) || containsSeq t needle

/-- JavaScript `s.includes(sub)`. -/
def jsIncludes (s sub : String) : Bool :=
  containsSeq s.data sub.data

/-- JavaScript `s.trim()`: strip leading and trailing whitespace. -/
def jsTrim (s : String) : String :=
  String.mk (((s.data.dropWhile Char.isWhitespace).reverse.dropWhile Char.isWhitespace).reverse)

/-- A changed file as returned by the pull-request file-list endpoint
(`filename, status, additions, deletions, patch`); the platform omits `patch`
(JavaScript `null`/`undefined`, here `none`) for binary or oversized files. -/
structure ChangedFile where
  filename : String
  status : String
  additions : Nat
  deletions : Nat
  patch : Option String
deriving DecidableEq, Repr

/-- A collected file as pushed by `listChangedFiles`:
`{ filename, status, additions, deletions, patch }` with the reduced and
trimmed patch text. -/
structure CollectedFile where
  filename : String
  status : String
  additions : Nat
  deletions : Nat
  patch : String
deriving DecidableEq, Repr

/-- Result of `listChangedFiles`: `{ files, totalLines }`. -/
structure CollectResult where
  files : List CollectedFile
  totalLines : Nat
deriving DecidableEq, Repr

/-- `function isBinaryOrLarge(f) { return f.status === "removed" || f.patch == null; }` -/
def isBinaryOrLarge (f : ChangedFile) : Bool :=
  f.status == "removed" || f.patch.isNone

/-- JavaScript `s.toLowerCase()`, character by character. -/
def jsToLower (s : String) : String :=
  String.mk (s.data.map Char.toLower)

/-- The extension taken by `hasRiskyExt`:
`filename.toLowerCase().split(".").pop()` — the substring after the final
`.` of the lower-cased name (the whole name when it has no dot). -/
def lastExt (filename : String) : String :=
  ((splitOnChar '.' (jsToLower filename).data).map (fun cs => String.mk cs)).getLastD ""

/-- `function hasRiskyExt(filename) { const ext = ...; return riskySet.has(ext); }`,
parametrised by the configured allow-list (`riskySet`). -/
def hasRiskyExt (exts : List String) (filename : String) : Bool :=
  exts.contains (lastExt filename)

/-- The default `RISKY_EXTS` configuration value, split on commas, as the
script builds `riskySet`. -/
def defaultRiskyExts : List String :=
  ["js", "ts", "tsx", "jsx", "py", "go", "rb", "php", "java", "kt", "cs", "rs",
   "swift", "c", "cc", "cpp", "h", "sql", "sh", "ps1", "yml", "yaml", "json",
   "html", "htm", "css", "scss", "vue", "mdx"]

/-- The patch-line predicate of `listChangedFiles`:
`l.startsWith("@@") || l.startsWith("+") || l.startsWith("-")`. -/
def keepLine (l : String) : Bool :=
  jsStartsWith l "@@" || jsStartsWith l "+" || jsStartsWith l "-"

/-- The patch reduction of `listChangedFiles`:
`(f.patch || "").split("\n").filter(l => l.startsWith("@@") || l.startsWith("+") || l.startsWith("-")).join("\n")`. -/
def reducePatch (raw : String) : String :=
  joinNl ((splitNl raw).filter keepLine)

/-- Number of lines of a patch string, in the sense the script counts them:
`patch.split("\n").length`. -/
def numLines (s : String) : Nat :=
  (splitNl s).length

/-- `function trimPatchLines(patch, limit)`: return `patch` unchanged when it
has at most `limit` lines; otherwise return
`[header, ...lines.slice(0, limit)].join("\n")` where `header` is the first
line when it starts with `@@` and the empty string otherwise. -/
def trimPatchLines (patch : String) (limit : Nat) : String :=
  let lines := splitNl patch
  if lines.length ≤ limit then patch
  else
    let header := if jsStartsWith (lines.headD "") "@@" then lines.headD "" else ""
    joinNl (header :: lines.take limit)

/-- The per-file body of the collection loop in `listChangedFiles`, iterated
over the (flattened) page contents.  Pagination is semantics-preserving here:
the pages partition the file list in order, the per-file cap check
(`if (files.length >= capFiles) break`) runs before every file, and the
page-boundary break (`data.length < per_page || files.length >= capFiles ||
totalLines >= capLines`) re-tests exactly the conditions that already
terminate the per-file loop, so iterating the body over the concatenation of
all pages produces the same `{ files, totalLines }`. -/
def collectGo (capFiles capLines perFileCap : Nat) (exts : List String) :
    List CollectedFile → Nat → List ChangedFile → CollectResult
  | files, totalLines, [] => ⟨files, totalLines⟩
  | files, totalLines, f :: rest =>
    if capFiles ≤ files.length then ⟨files, totalLines⟩
    else if isBinaryOrLarge f || !hasRiskyExt exts f.filename then
      collectGo capFiles capLines perFileCap exts files totalLines rest
    else
      let patch0 := reducePatch ((f.patch).getD "")
      if jsTrim patch0 = "" then
        collectGo capFiles capLines perFileCap exts files totalLines rest
      else
        let patch1 := trimPatchLines patch0 perFileCap
        let patchLines := numLines patch1
        if capLines < totalLines + patchLines ∧ capLines - totalLines = 0 then
          ⟨files, totalLines⟩
        else
          let patch2 :=
            if capLines < totalLines + patchLines then
              trimPatchLines patch1 (capLines - totalLines)
            else patch1
          let newTotal := totalLines + numLines patch2
          let newFiles :=
            files ++ [⟨f.filename, f.status, f.additions, f.deletions, patch2⟩]
          if capFiles ≤ newFiles.length ∨ capLines ≤ newTotal then ⟨newFiles, newTotal⟩
          else collectGo capFiles capLines perFileCap exts newFiles newTotal rest

/-- `async function listChangedFiles(prNumber, capFiles, capLines, perFileCap)`,
as a function of the pull request's full changed-file list (the concatenation
of all pages returned by `pulls.listFiles`). -/
def listChangedFiles (fs : List ChangedFile) (capFiles capLines perFileCap : Nat)
    (exts : List String) : CollectResult :=
  collectGo capFiles capLines perFileCap exts [] 0 fs

/-- The input file of the cap-overflow counterexample: an eligible modified
`a.py` whose reduced patch is the three lines `+a`, `+b`, `+c`. -/
def capOverflowFile : ChangedFile :=
  ⟨"a.py", "modified", 3, 0, some "+a\n+b\n+c"⟩

/-- Eligibility of a changed file for collection: not removed/patchless, an
allow-listed extension, and a non-empty reduced patch — the complement of the
three skip conditions in the body of `listChangedFiles`. -/
def eligibleFile (exts : List String) (f : ChangedFile) : Bool :=
  !(isBinaryOrLarge f) && hasRiskyExt exts f.filename &&
    !(jsTrim (reducePatch ((f.patch).getD "")) == "")

/-- The patch finally pushed for an eligible file: the per-file trim followed,
when the aggregate budget would overflow, by the trim to the remaining
budget. -/
def collectPatch2 (capLines perFileCap totalLines : Nat) (f : ChangedFile) : String :=
  let patch1 := trimPatchLines (reducePatch ((f.patch).getD "")) perFileCap
  if capLines < totalLines + numLines patch1 then
    trimPatchLines patch1 (capLines - totalLines)
  else patch1

/-- Scenario A input: one modified `app.py` whose patch holds one hunk header,
5 context lines, 2 added lines and 1 removed line. -/
def scenarioAFile : ChangedFile :=
  ⟨"app.py", "modified", 2, 1,
    some "@@ -1,4 +1,5 @@\n ctx1\n ctx2\n+add1\n+add2\n ctx3\n-del1\n ctx4\n ctx5"⟩

/-- A GitLeaks finding as consumed by `summarizeGitLeaks`: the case-varying
alias fields the script probes (`File`/`file`/`Path`, `RuleID`/`ruleID`/`Rule`,
`StartLine`/`startLine`/`Line`); the line aliases are numbers in the report. -/
structure Finding where
  File : Option String
  file : Option String
  Path : Option String
  RuleID : Option String
  ruleID : Option String
  Rule : Option String
  StartLine : Option Int
  startLine : Option Int
  Line : Option Int
deriving DecidableEq, Repr

/-- JavaScript `a || b` for a possibly-absent string `a`: falls through on
`undefined` and on the empty string (the only falsy string). -/
def jsOrStr (v : Option String) (fallback : String) : String :=
  match v with
  | some s => if s = "" then fallback else s
  | none => fallback

/-- JavaScript `a || b` for a possibly-absent number `a` rendered into a
template literal: falls through on `undefined` and on `0` (falsy). -/
def jsOrNum (v : Option Int) (fallback : String) : String :=
  match v with
  | some n => if n = 0 then fallback else toString n
  | none => fallback

/-- One rendered GitLeaks entry:
`` `- \`${file}\` line ${line}: **${rule}**` `` with the alias fallbacks of
`summarizeGitLeaks`. -/
def renderFinding (f : Finding) : String :=
  "- `" ++ jsOrStr f.File (jsOrStr f.file (jsOrStr f.Path "unknown")) ++ "` line " ++
    jsOrNum f.StartLine (jsOrNum f.startLine (jsOrNum f.Line "?")) ++ ": **" ++
    jsOrStr f.RuleID (jsOrStr f.ruleID (jsOrStr f.Rule "rule")) ++ "**"

/-- `function summarizeGitLeaks(findings, limit = 10)`: empty string on no
findings, otherwise a header, the first `limit` rendered findings joined by
newlines, and an `…and N more.` note when the list was truncated. -/
def summarizeGitLeaks (findings : List Finding) (limit : Nat) : String :=
  if findings.length = 0 then ""
  else
    let lines := (findings.take limit).map renderFinding
    let more :=
      if limit < findings.length then
        "\n…and " ++ toString (findings.length - limit) ++ " more."
      else ""
    "### 🔑 GitLeaks Findings\n" ++ joinNl lines ++ more

/-- `function buildUserMessage(files)`: the `>>> BEGIN_PATCHES` block with one
fenced diff section per collected file. -/
def buildUserMessage (files : List CollectedFile) : String :=
  ">>> BEGIN_PATCHES\n" ++
    String.join (files.map (fun f =>
      "\n=== FILE: " ++ f.filename ++ " (" ++ f.status ++ ", +" ++
        toString f.additions ++ "/-" ++ toString f.deletions ++ ") ===\n" ++
        "```diff\n" ++ f.patch ++ "\n```\n")) ++
    "\n<<< END_PATCHES"

/-- The externally visible effects of the success path of `run()`, in order:
the chat-completion request and the comment upsert. -/
inductive RunEvent where
  | chatRequest (userMessage : String)
  | upsertComment (content : String)
deriving DecidableEq, Repr

/-- The success path of `run()` as the ordered list of its external effects,
as a function of the pull request's changed files, the configuration, the
completion text the endpoint would return, and the GitLeaks findings on disk:
collect the diffs; when nothing was collected, post `"No eligible code
changes."` and return; otherwise call the completion endpoint and post the
analysis (with fallback text) joined with the non-empty GitLeaks extras. -/
def runSuccessEvents (fs : List ChangedFile) (capFiles capLines perFileCap : Nat)
    (exts : List String) (analysis : String) (findings : List Finding) : List RunEvent :=
  let collected := listChangedFiles fs capFiles capLines perFileCap exts
  if collected.files.length = 0 then
    [RunEvent.upsertComment "No eligible code changes."]
  else
    [RunEvent.chatRequest (buildUserMessage collected.files),
      RunEvent.upsertComment (String.intercalate "\n\n"
        (([if analysis = "" then "No output from model." else analysis,
          summarizeGitLeaks findings 10]).filter (fun s => !(s == ""))))]

/-- A pull-request comment: `{ id, body }`, the body possibly absent
(`c.body?.` in the script). -/
structure PRComment where
  id : Nat
  body : Option String
deriving DecidableEq, Repr

/-- `const COMMENT_TAG = "<!-- secure-code-review-bot -->";` -/
def COMMENT_TAG : String := "<!-- secure-code-review-bot -->"

/-- The body composed by `upsertPRComment`: header line, marker tag, blank
line, content, blank line, and the disclaimer footer. -/
def composeBody (content : String) : String :=
  "## 🔐 Secure Code Review (AI)\n" ++ COMMENT_TAG ++ "\n\n" ++ content ++
    "\n\n---\n_Models can make mistakes. Verify before merging._"

/-- The marker test of `upsertPRComment`: `c.body?.includes(COMMENT_TAG)`. -/
def hasTag (c : PRComment) : Bool :=
  match c.body with
  | some b => jsIncludes b COMMENT_TAG
  | none => false

/-- `async function upsertPRComment(prNumber, content)` as a transformation of
the pull request's comment list: list one page of up to 100 comments, find the
first whose body contains the marker, update it in place when found, otherwise
create a new comment (with the platform-assigned fresh id `newId`). -/
def upsertPRComment (comments : List PRComment) (newId : Nat) (content : String) :
    List PRComment :=
  let body := composeBody content
  match (comments.take 100).find? hasTag with
  | some mine => comments.map (fun c => if c.id = mine.id then ⟨c.id, some body⟩ else c)
  | none => comments ++ [⟨newId, some body⟩]

/-- The chat-completion HTTP response as `callOpenAI` consumes it: status,
raw body text, and `message.content` of each element of `choices`. -/
structure ChatResponse where
  status : Nat
  body : String
  choices : List (Option String)
deriving DecidableEq, Repr

/-- `fetch` `Response.ok`: status in the range 200–299. -/
def respOk (status : Nat) : Bool :=
  200 ≤ status && status ≤ 299

/-- Outcome of `callOpenAI`: the `OPENAI_INSUFFICIENT_QUOTA` throw on 429, the
`OpenAI HTTP <status>: <body>` throw on any other non-ok status, or the
returned text. -/
inductive ReviewOutcome where
  | quotaExceeded
  | upstreamError (status : Nat) (body : String)
  | ok (text : String)
deriving DecidableEq, Repr

/-- `async function callOpenAI(systemPrompt, userContent)` as a function of
the single HTTP response it receives (one attempt, no retry):
429 ↦ quota throw; other non-ok ↦ upstream throw carrying status and body;
ok ↦ `data.choices?.[0]?.message?.content?.trim() || ""`. -/
def callOpenAI (resp : ChatResponse) : ReviewOutcome :=
  if resp.status = 429 then ReviewOutcome.quotaExceeded
  else if !respOk resp.status then ReviewOutcome.upstreamError resp.status resp.body
  else ReviewOutcome.ok (jsOrStr ((resp.choices.headD none).map jsTrim) "")

/-- `String(err)` for the error thrown by the non-ok branch of `callOpenAI`:
`` `OpenAI HTTP ${resp.status}: ${await resp.text()}` `` prefixed by
JavaScript's `"Error: "` rendering of an `Error` value. -/
def upstreamErrString (status : Nat) (body : String) : String :=
  "Error: OpenAI HTTP " ++ toString status ++ ": " ++ body

/-- The quota marker searched by the catch block of `run()`. -/
def quotaToken : String := "OPENAI_INSUFFICIENT_QUOTA"

/-- The specialized billing comment of the catch block of `run()`. -/
def quotaComment : String :=
  "⚠️ Could not complete review: **API quota exceeded**. Add billing or use another provider."

/-- The generic failure comment of the catch block of `run()`:
`` `⚠️ Could not complete review: \`${String(err)}\`` ``. -/
def genericComment (errStr : String) : String :=
  "⚠️ Could not complete review: `" ++ errStr ++ "`"

/-- The comment the catch block attempts to post, selected by
`String(err).includes("OPENAI_INSUFFICIENT_QUOTA")`. -/
def failureComment (errStr : String) : String :=
  if jsIncludes errStr quotaToken then quotaComment else genericComment errStr

/-- Outcome of the catch block of `run()`: either `core.setFailed(String(err))`
was reached (after the failure comment, when one could be posted), or the
comment post itself threw and the handler re-raised before `setFailed`. -/
inductive CatchOutcome where
  | failedSignaled (failMessage : String) (posted : Option String)
  | rethrew (e : String)
deriving DecidableEq, Repr

/-- The catch block of `run()`: with no pull-request number in the context no
comment is attempted and `setFailed` runs; with a number, the failure comment
is attempted through `upsertPRComment` (modelled by the fallible `upsert`
oracle), `setFailed` runs only when that post succeeds, and an error from the
post propagates out of the handler. -/
def runCatch (errStr : String) (prNumber : Option Nat)
    (upsert : String → Except String Unit) : CatchOutcome :=
  match prNumber with
  | none => CatchOutcome.failedSignaled errStr none
  | some _ =>
    match upsert (failureComment errStr) with
    | Except.ok _ => CatchOutcome.failedSignaled errStr (some (failureComment errStr))
    | Except.error e => CatchOutcome.rethrew e

/-- The external calls the script can issue. -/
inductive ExtCall where
  | listFilesPage
  | chatCompletion
  | listComments
  | createComment
  | updateComment
deriving DecidableEq, Repr

/-- An external call together with the time at which it starts. -/
structure TimedCall where
  call : ExtCall
  start : Nat
deriving DecidableEq, Repr

/-- The timed trace of the pagination loop of `listChangedFiles`:
`abortIfTimeUp()` (`Date.now() > deadline` throws) runs at the top of every
iteration, immediately before each page fetch; `ds` lists the wall-clock
duration of each page round trip. -/
def pagedListCalls (deadline : Nat) : Nat → List Nat → Except String (List TimedCall)
  | _, [] => Except.ok []
  | t, d :: ds =>
    if deadline < t then Except.error "TIME_BUDGET_EXCEEDED"
    else
      match pagedListCalls deadline (t + d) ds with
      | Except.ok rest => Except.ok (⟨ExtCall.listFilesPage, t⟩ :: rest)
      | Except.error e => Except.error e

/-- The timed trace of `callOpenAI`: one `abortIfTimeUp()` immediately before
the single fetch. -/
def chatCalls (deadline t : Nat) : Except String (List TimedCall) :=
  if deadline < t then Except.error "TIME_BUDGET_EXCEEDED"
  else Except.ok [⟨ExtCall.chatCompletion, t⟩]

/-- The timed trace of `upsertPRComment`: one `abortIfTimeUp()` at entry, then
the comment listing (taking `dList` of wall-clock time) and, with no further
deadline check, the update or create call at `t + dList`. -/
def upsertCalls (deadline t dList : Nat) (found : Bool) : Except String (List TimedCall) :=
  if deadline < t then Except.error "TIME_BUDGET_EXCEEDED"
  else Except.ok [⟨ExtCall.listComments, t⟩,
    ⟨if found then ExtCall.updateComment else ExtCall.createComment, t + dList⟩]

/-- Three GitLeaks findings exercising the alias fallbacks. -/
def demoFindings : List Finding :=
  [⟨some "config/.env", none, none, some "generic-api-key", none, none, some 12, none, none⟩,
   ⟨none, some "src/db.js", none, none, some "aws-access-token", none, none, some 3, none⟩,
   ⟨none, none, some "deploy.sh", none, none, some "private-key", none, none, some 0⟩]

theorem splitOnChar_ne_nil (sep : Char) (cs : List Char) : splitOnChar sep cs ≠ [] := by
  induction cs with
  | nil => simp [splitOnChar]
  | cons c cs ih =>
    by_cases h : c = sep
    · simp [splitOnChar, h]
    · cases hs : splitOnChar sep cs with
      | nil => simp [splitOnChar, h, hs]
      | cons l ls => simp [splitOnChar, h, hs]

theorem not_sep_mem_splitOnChar (sep : Char) (cs : List Char) :
    ∀ l ∈ splitOnChar sep cs, sep ∉ l := by
  induction cs with
  | nil =>
    intro l hl
    simp [splitOnChar] at hl
    simp [hl]
  | cons c cs ih =>
    intro l hl
    by_cases h : c = sep
    · simp [splitOnChar, h] at hl
      rcases hl with hl | hl
      · simp [hl]
      · exact ih l hl
    · cases hs : splitOnChar sep cs with
      | nil => exact absurd hs (splitOnChar_ne_nil sep cs)
      | cons l₀ ls =>
        simp [splitOnChar, h, hs] at hl
        rcases hl with hl | hl
        · subst hl
          intro hmem
          rcases List.mem_cons.mp hmem with hc | hc
          · exact h hc.symm
          · exact ih l₀ (hs ▸ List.mem_cons_self l₀ ls) hc
        · exact ih l (hs ▸ List.mem_cons_of_mem l₀ hl)

theorem splitOnChar_no_sep (sep : Char) (x : List Char) (hx : sep ∉ x) :
    splitOnChar sep x = [x] := by
  induction x with
  | nil => simp [splitOnChar]
  | cons c cs ih =>
    have hc : ¬ c = sep := fun h => hx (h ▸ List.mem_cons_self c cs)
    have hcs : sep ∉ cs := fun h => hx (List.mem_cons_of_mem c h)
    simp [splitOnChar, hc, ih hcs]

theorem splitOnChar_append_sep (sep : Char) (x : List Char) (hx : sep ∉ x) (rest : List Char) :
    splitOnChar sep (x ++ sep :: rest) = x :: splitOnChar sep rest := by
  induction x with
  | nil => simp [splitOnChar]
  | cons c cs ih =>
    have hc : ¬ c = sep := fun h => hx (h ▸ List.mem_cons_self c cs)
    have hcs : sep ∉ cs := fun h => hx (List.mem_cons_of_mem c h)
    have h2 := ih hcs
    show splitOnChar sep (c :: (cs ++ sep :: rest)) = (c :: cs) :: splitOnChar sep rest
    rw [splitOnChar, if_neg hc, h2]

theorem splitOnChar_joinWithChar (sep : Char) (xs : List (List Char)) (hne : xs ≠ [])
    (hfree : ∀ l ∈ xs, sep ∉ l) :
    splitOnChar sep (joinWithChar sep xs) = xs := by
  induction xs with
  | nil => exact absurd rfl hne
  | cons x xs ih =>
    cases xs with
    | nil =>
      simp [joinWithChar, splitOnChar_no_sep sep x (hfree x (List.mem_cons_self x []))]
    | cons y ys =>
      have hx : sep ∉ x := hfree x (List.mem_cons_self x (y :: ys))
      have hrest : ∀ l ∈ y :: ys, sep ∉ l := fun l hl => hfree l (List.mem_cons_of_mem x hl)
      have := ih (by simp) hrest
      simp only [joinWithChar, splitOnChar_append_sep sep x hx, this]

theorem splitNl_ne_nil (s : String) : splitNl s ≠ [] := by
  unfold splitNl
  intro h
  exact splitOnChar_ne_nil '\n' s.data (List.map_eq_nil_iff.mp h)

theorem mem_splitNl_no_newline (s : String) : ∀ l ∈ splitNl s, '\n' ∉ l.data := by
  intro l hl
  unfold splitNl at hl
  rcases List.mem_map.mp hl with ⟨cs, hcs, hmk⟩
  have : l.data = cs := by rw [← hmk]
  rw [this]
  exact not_sep_mem_splitOnChar '\n' s.data cs hcs

theorem map_mk_map_data (l : List String) : (l.map String.data).map String.mk = l := by
  induction l with
  | nil => rfl
  | cons a as ih => simp only [List.map_cons, ih]

theorem splitNl_joinNl (xs : List String) (hne : xs ≠ [])
    (hfree : ∀ l ∈ xs, '\n' ∉ l.data) :
    splitNl (joinNl xs) = xs := by
  unfold splitNl joinNl
  have hmapne : xs.map String.data ≠ [] := by
    intro h
    exact hne (List.map_eq_nil_iff.mp h)
  have hmapfree : ∀ l ∈ xs.map String.data, '\n' ∉ l := by
    intro l hl
    rcases List.mem_map.mp hl with ⟨s, hs, hd⟩
    rw [← hd]
    exact hfree s hs
  rw [show (String.mk (joinWithChar '\n' (xs.map String.data))).data
        = joinWithChar '\n' (xs.map String.data) from rfl]
  rw [splitOnChar_joinWithChar '\n' (xs.map String.data) hmapne hmapfree]
  exact map_mk_map_data xs

theorem isPrefixOf_nil_left (l : List Char) : List.isPrefixOf ([] : List Char) l = true := by
  cases l <;> rfl

theorem isPrefixOf_self_append (l t : List Char) : List.isPrefixOf l (l ++ t) = true := by
  induction l with
  | nil => exact isPrefixOf_nil_left t
  | cons c cs ih => simp [List.isPrefixOf, ih]

theorem containsSeq_nil_right (hay : List Char) : containsSeq hay [] = true := by
  cases hay with
  | nil => rfl
  | cons c t => simp [containsSeq, isPrefixOf_nil_left]

theorem containsSeq_append_mid (a needle b : List Char) :
    containsSeq (a ++ needle ++ b) needle = true := by
  induction a with
  | nil =>
    cases hn : needle with
    | nil => exact containsSeq_nil_right b
    | cons c cs =>
      have hpre : List.isPrefixOf needle (needle ++ b) = true := isPrefixOf_self_append needle b
      rw [hn] at hpre
      simp only [List.nil_append, List.cons_append, containsSeq]
      have hpre2 : ((c :: cs).isPrefixOf (c :: cs.append b)) = true := hpre
      simp [hpre2]
  | cons c cs ih =>
    cases h : cs ++ needle ++ b with
    | nil =>
      have hn : needle = [] := by
        simp only [List.append_eq_nil] at h
        exact h.1.2
      simp [containsSeq_nil_right, hn]
    | cons d ds =>
      rw [show (c :: cs) ++ needle ++ b = c :: (cs ++ needle ++ b) by simp]
      simp only [containsSeq, Bool.or_eq_true]
      right
      exact ih

theorem jsStartsWith_single (s : String) (c : Char) (h : jsStartsWith s (String.mk [c]) = true) :
    ∃ t, s.data = c :: t := by
  unfold jsStartsWith at h
  cases hs : s.data with
  | nil => rw [hs] at h; simp [List.isPrefixOf] at h
  | cons d ds =>
    rw [hs] at h
    simp only [List.isPrefixOf, Bool.and_eq_true, beq_iff_eq] at h
    exact ⟨ds, by rw [h.1]⟩

theorem jsStartsWith_double (s : String) (c₁ c₂ : Char)
    (h : jsStartsWith s (String.mk [c₁, c₂]) = true) :
    ∃ t, s.data = c₁ :: c₂ :: t := by
  unfold jsStartsWith at h
  cases hs : s.data with
  | nil => rw [hs] at h; simp [List.isPrefixOf] at h
  | cons d ds =>
    rw [hs] at h
    cases hds : ds with
    | nil => rw [hds] at h; simp [List.isPrefixOf] at h
    | cons e es =>
      rw [hds] at h
      simp only [List.isPrefixOf, Bool.and_eq_true, beq_iff_eq] at h
      exact ⟨es, by rw [h.1, h.2.1]⟩

theorem jsTrim_eq_empty_of_all_ws (s : String) (h : ∀ c ∈ s.data, c.isWhitespace) :
    jsTrim s = "" := by
  unfold jsTrim
  have h1 : s.data.dropWhile Char.isWhitespace = [] :=
    List.dropWhile_eq_nil_iff.mpr h
  rw [h1]
  rfl

theorem jsTrim_ne_empty_of_non_ws (s : String) (c : Char) (hc : c ∈ s.data)
    (hws : ¬ c.isWhitespace) : jsTrim s ≠ "" := by
  intro h
  unfold jsTrim at h
  have hdata : (((s.data.dropWhile Char.isWhitespace).reverse.dropWhile
      Char.isWhitespace).reverse) = [] := by
    have := congrArg String.data h
    exact this
  rw [List.reverse_eq_nil_iff] at hdata
  have h2 : ∀ a ∈ (s.data.dropWhile Char.isWhitespace).reverse, a.isWhitespace := by
    intro a ha
    by_contra hna
    have h3 := List.dropWhile_eq_nil_iff.mp hdata a ha
    exact hna h3
  have h4 : ∀ a ∈ s.data.dropWhile Char.isWhitespace, a.isWhitespace := by
    intro a ha
    exact h2 a (List.mem_reverse.mpr ha)
  have h5 : ∀ a ∈ s.data, a.isWhitespace := by
    intro a ha
    rw [← List.takeWhile_append_dropWhile Char.isWhitespace s.data] at ha
    rcases List.mem_append.mp ha with h | h
    · exact List.mem_takeWhile_imp h
    · exact h4 a h
  exact hws (h5 c hc)

theorem numLines_trimPatchLines (p : String) (limit : Nat) :
    numLines (trimPatchLines p limit) =
      if numLines p ≤ limit then numLines p else limit + 1 := by
  simp only [trimPatchLines, numLines]
  by_cases h : (splitNl p).length ≤ limit
  · simp [h]
  · have hne : splitNl p ≠ [] := splitNl_ne_nil p
    have hheadmem : (splitNl p).headD "" ∈ splitNl p := by
      rcases List.exists_cons_of_ne_nil hne with ⟨l₀, ls, hcons⟩
      rw [hcons]
      exact List.mem_cons_self l₀ ls
    have hheadfree : '\n' ∉ ((splitNl p).headD "").data :=
      mem_splitNl_no_newline p _ hheadmem
    have hfree : ∀ l ∈ (if jsStartsWith ((splitNl p).headD "") "@@" then
        (splitNl p).headD "" else "") :: (splitNl p).take limit, '\n' ∉ l.data := by
      intro l hl
      rcases List.mem_cons.mp hl with hl | hl
      · subst hl
        by_cases hsw : jsStartsWith ((splitNl p).headD "") "@@" = true
        · rw [if_pos hsw]
          exact hheadfree
        · rw [if_neg hsw]
          intro hmem
          exact absurd hmem (by decide)
      · exact mem_splitNl_no_newline p l (List.mem_of_mem_take hl)
    rw [if_neg h, if_neg h, splitNl_joinNl _ (by simp) hfree]
    simp only [List.length_cons, List.length_take]
    omega

theorem collectGo_invariants (capFiles capLines perFileCap : Nat) (exts : List String) :
    ∀ (fs : List ChangedFile) (files : List CollectedFile) (totalLines : Nat),
      totalLines = (files.map (fun cf => numLines cf.patch)).sum →
      totalLines ≤ capLines →
      (∀ cf ∈ files, numLines cf.patch ≤ perFileCap + 1) →
      (collectGo capFiles capLines perFileCap exts files totalLines fs).totalLines =
        (((collectGo capFiles capLines perFileCap exts files totalLines fs).files).map
          (fun cf => numLines cf.patch)).sum ∧
      (collectGo capFiles capLines perFileCap exts files totalLines fs).totalLines ≤
        capLines + 1 ∧
      ∀ cf ∈ (collectGo capFiles capLines perFileCap exts files totalLines fs).files,
        numLines cf.patch ≤ perFileCap + 1 := by
  intro fs
  induction fs with
  | nil =>
    intro files totalLines hsum hle hper
    exact ⟨hsum, Nat.le_succ_of_le hle, hper⟩
  | cons f rest ih =>
    intro files totalLines hsum hle hper
    rw [collectGo]
    by_cases hcap : capFiles ≤ files.length
    · rw [if_pos hcap]
      exact ⟨hsum, Nat.le_succ_of_le hle, hper⟩
    rw [if_neg hcap]
    by_cases hskip : (isBinaryOrLarge f || !hasRiskyExt exts f.filename) = true
    · rw [if_pos hskip]
      exact ih files totalLines hsum hle hper
    rw [if_neg hskip]
    by_cases htrim : jsTrim (reducePatch ((f.patch).getD "")) = ""
    · rw [if_pos htrim]
      exact ih files totalLines hsum hle hper
    rw [if_neg htrim]
    simp only []
    set patch1 := trimPatchLines (reducePatch ((f.patch).getD "")) perFileCap with hpatch1
    have hper1 : numLines patch1 ≤ perFileCap + 1 := by
      rw [hpatch1, numLines_trimPatchLines]
      split <;> omega
    by_cases hbreak : capLines < totalLines + numLines patch1 ∧ capLines - totalLines = 0
    · rw [if_pos hbreak]
      exact ⟨hsum, Nat.le_succ_of_le hle, hper⟩
    rw [if_neg hbreak]
    by_cases hover : capLines < totalLines + numLines patch1
    · have hrem : capLines - totalLines ≠ 0 := fun h => hbreak ⟨hover, h⟩
      rw [if_pos hover]
      have hn2 : numLines (trimPatchLines patch1 (capLines - totalLines)) =
          capLines - totalLines + 1 := by
        rw [numLines_trimPatchLines]
        rw [if_neg (by omega)]
      have hstop : capLines ≤ totalLines + numLines (trimPatchLines patch1 (capLines - totalLines)) := by
        rw [hn2]; omega
      rw [if_pos (Or.inr hstop)]
      refine ⟨?_, ?_, ?_⟩
      · simp only [List.map_append, List.sum_append, List.map_cons, List.map_nil,
          List.sum_cons, List.sum_nil]
        omega
      · simp only [hn2]
        omega
      · intro cf hcf
        rcases List.mem_append.mp hcf with hcf | hcf
        · exact hper cf hcf
        · have : cf = ⟨f.filename, f.status, f.additions, f.deletions,
              trimPatchLines patch1 (capLines - totalLines)⟩ := List.mem_singleton.mp hcf
          rw [this]
          simp only [hn2]
          omega
    · rw [if_neg hover]
      have hnewle : totalLines + numLines patch1 ≤ capLines := by omega
      by_cases hstop2 : capFiles ≤ (files ++ [(⟨f.filename, f.status, f.additions,
          f.deletions, patch1⟩ : CollectedFile)]).length ∨
          capLines ≤ totalLines + numLines patch1
      · rw [if_pos hstop2]
        refine ⟨?_, show totalLines + numLines patch1 ≤ capLines + 1 by omega, ?_⟩
        · simp only [List.map_append, List.sum_append, List.map_cons, List.map_nil,
            List.sum_cons, List.sum_nil]
          omega
        · intro cf hcf
          rcases List.mem_append.mp hcf with hcf | hcf
          · exact hper cf hcf
          · have : cf = ⟨f.filename, f.status, f.additions, f.deletions, patch1⟩ :=
              List.mem_singleton.mp hcf
            rw [this]
            exact hper1
      · rw [if_neg hstop2]
        apply ih
        · simp only [List.map_append, List.sum_append, List.map_cons, List.map_nil,
            List.sum_cons, List.sum_nil]
          omega
        · exact hnewle
        · intro cf hcf
          rcases List.mem_append.mp hcf with hcf | hcf
          · exact hper cf hcf
          · have : cf = ⟨f.filename, f.status, f.additions, f.deletions, patch1⟩ :=
              List.mem_singleton.mp hcf
            rw [this]
            exact hper1

/-- Claim C1 (counterexample): with aggregate line cap `L = 1` and per-file cap
`P = 1`, `listChangedFiles` run on the single eligible file `capOverflowFile`
returns `totalLines = 2 > L`, and its single collected patch `"\n"` counts
`2 > P` lines — `trimPatchLines` prepends a header slot to the first `limit`
lines, so a trimmed patch has `limit + 1` lines, and both budget invariants of
the claim fail. -/
theorem c1_budget_caps_counterexample :
    listChangedFiles [capOverflowFile] 30 1 1 ["py"] =
      ⟨[⟨"a.py", "modified", 3, 0, "\n"⟩], 2⟩ ∧
    1 < (listChangedFiles [capOverflowFile] 30 1 1 ["py"]).totalLines ∧
    1 < numLines (⟨"a.py", "modified", 3, 0, "\n"⟩ : CollectedFile).patch := by
  refine ⟨by decide, by decide, by decide⟩

/-- Claim C1 (amended): for every input file list and all configured caps, the
returned `totalLines` equals the sum of the collected patches' line counts,
that sum never exceeds the aggregate cap `L` by more than one line
(`totalLines ≤ L + 1`), and no individual patch exceeds the per-file cap `P`
by more than one line (`≤ P + 1`).  The one-line slack is exactly the header
slot that `trimPatchLines` prepends when it truncates. -/
theorem c1_budget_caps_amended (fs : List ChangedFile)
    (capFiles capLines perFileCap : Nat) (exts : List String) :
    (listChangedFiles fs capFiles capLines perFileCap exts).totalLines =
      (((listChangedFiles fs capFiles capLines perFileCap exts).files).map
        (fun cf => numLines cf.patch)).sum ∧
    (listChangedFiles fs capFiles capLines perFileCap exts).totalLines ≤ capLines + 1 ∧
    ∀ cf ∈ (listChangedFiles fs capFiles capLines perFileCap exts).files,
      numLines cf.patch ≤ perFileCap + 1 :=
  collectGo_invariants capFiles capLines perFileCap exts fs [] 0 rfl
    (Nat.zero_le capLines) (by simp)

/-- Witness for the amended claim C1 at a concrete input: the single patch
collected from `capOverflowFile` under caps `L = P = 1` stays within the
amended bound `P + 1`. -/
theorem c1_budget_caps_witness :
    numLines (⟨"a.py", "modified", 3, 0, "\n"⟩ : CollectedFile).patch ≤ 1 + 1 :=
  (c1_budget_caps_amended [capOverflowFile] 30 1 1 ["py"]).2.2
    ⟨"a.py", "modified", 3, 0, "\n"⟩ (by decide)

theorem collectGo_capped (capFiles capLines perFileCap : Nat) (exts : List String)
    (files : List CollectedFile) (totalLines : Nat) (fs : List ChangedFile)
    (h : capFiles ≤ files.length) :
    collectGo capFiles capLines perFileCap exts files totalLines fs =
      ⟨files, totalLines⟩ := by
  cases fs with
  | nil => rfl
  | cons f rest => rw [collectGo, if_pos h]

theorem collectGo_step_skip (capFiles capLines perFileCap : Nat) (exts : List String)
    (files : List CollectedFile) (totalLines : Nat) (f : ChangedFile)
    (rest : List ChangedFile) (hcap : ¬ capFiles ≤ files.length)
    (hskip : (isBinaryOrLarge f || !hasRiskyExt exts f.filename) = true) :
    collectGo capFiles capLines perFileCap exts files totalLines (f :: rest) =
      collectGo capFiles capLines perFileCap exts files totalLines rest := by
  rw [collectGo, if_neg hcap, if_pos hskip]

theorem collectGo_step_empty (capFiles capLines perFileCap : Nat) (exts : List String)
    (files : List CollectedFile) (totalLines : Nat) (f : ChangedFile)
    (rest : List ChangedFile) (hcap : ¬ capFiles ≤ files.length)
    (hskip : (isBinaryOrLarge f || !hasRiskyExt exts f.filename) = false)
    (htrim : jsTrim (reducePatch ((f.patch).getD "")) = "") :
    collectGo capFiles capLines perFileCap exts files totalLines (f :: rest) =
      collectGo capFiles capLines perFileCap exts files totalLines rest := by
  rw [collectGo, if_neg hcap, if_neg (by simp [hskip]), if_pos htrim]

theorem collectGo_step_break (capFiles capLines perFileCap : Nat) (exts : List String)
    (files : List CollectedFile) (totalLines : Nat) (f : ChangedFile)
    (rest : List ChangedFile) (hcap : ¬ capFiles ≤ files.length)
    (hskip : (isBinaryOrLarge f || !hasRiskyExt exts f.filename) = false)
    (htrim : ¬ jsTrim (reducePatch ((f.patch).getD "")) = "")
    (hbreak : capLines < totalLines +
        numLines (trimPatchLines (reducePatch ((f.patch).getD "")) perFileCap) ∧
      capLines - totalLines = 0) :
    collectGo capFiles capLines perFileCap exts files totalLines (f :: rest) =
      ⟨files, totalLines⟩ := by
  rw [collectGo, if_neg hcap, if_neg (by simp [hskip]), if_neg htrim]
  simp only []
  rw [if_pos hbreak]

theorem collectGo_step_push (capFiles capLines perFileCap : Nat) (exts : List String)
    (files : List CollectedFile) (totalLines : Nat) (f : ChangedFile)
    (rest : List ChangedFile) (hcap : ¬ capFiles ≤ files.length)
    (hskip : (isBinaryOrLarge f || !hasRiskyExt exts f.filename) = false)
    (htrim : ¬ jsTrim (reducePatch ((f.patch).getD "")) = "")
    (hbreak : ¬ (capLines < totalLines +
        numLines (trimPatchLines (reducePatch ((f.patch).getD "")) perFileCap) ∧
      capLines - totalLines = 0)) :
    collectGo capFiles capLines perFileCap exts files totalLines (f :: rest) =
      (if capFiles ≤ (files ++ [(⟨f.filename, f.status, f.additions, f.deletions,
            collectPatch2 capLines perFileCap totalLines f⟩ : CollectedFile)]).length ∨
          capLines ≤ totalLines + numLines (collectPatch2 capLines perFileCap totalLines f) then
        ⟨files ++ [⟨f.filename, f.status, f.additions, f.deletions,
          collectPatch2 capLines perFileCap totalLines f⟩],
          totalLines + numLines (collectPatch2 capLines perFileCap totalLines f)⟩
      else
        collectGo capFiles capLines perFileCap exts
          (files ++ [⟨f.filename, f.status, f.additions, f.deletions,
            collectPatch2 capLines perFileCap totalLines f⟩])
          (totalLines + numLines (collectPatch2 capLines perFileCap totalLines f)) rest) := by
  rw [collectGo, if_neg hcap, if_neg (by simp [hskip]), if_neg htrim]
  simp only []
  rw [if_neg hbreak]
  rfl

theorem eligible_true_skip (exts : List String) (f : ChangedFile)
    (h : eligibleFile exts f = true) :
    (isBinaryOrLarge f || !hasRiskyExt exts f.filename) = false := by
  simp only [eligibleFile, Bool.and_eq_true, Bool.not_eq_true'] at h
  simp [h.1.1, h.1.2]

theorem eligible_true_trim (exts : List String) (f : ChangedFile)
    (h : eligibleFile exts f = true) :
    ¬ jsTrim (reducePatch ((f.patch).getD "")) = "" := by
  simp only [eligibleFile, Bool.and_eq_true, Bool.not_eq_true'] at h
  simpa using h.2

theorem eligible_false_cases (exts : List String) (f : ChangedFile)
    (h : eligibleFile exts f = false) :
    (isBinaryOrLarge f || !hasRiskyExt exts f.filename) = true ∨
      ((isBinaryOrLarge f || !hasRiskyExt exts f.filename) = false ∧
        jsTrim (reducePatch ((f.patch).getD "")) = "") := by
  by_cases hskip : (isBinaryOrLarge f || !hasRiskyExt exts f.filename) = true
  · exact Or.inl hskip
  · right
    have hskip' : (isBinaryOrLarge f || !hasRiskyExt exts f.filename) = false := by
      simpa using hskip
    refine ⟨hskip', ?_⟩
    by_cases ht : jsTrim (reducePatch ((f.patch).getD "")) = ""
    · exact ht
    · exfalso
      have helig : eligibleFile exts f = true := by
        simp only [Bool.or_eq_false_iff, Bool.not_eq_false'] at hskip'
        simp [eligibleFile, hskip'.1, hskip'.2, ht]
      rw [helig] at h
      exact absurd h (by simp)

theorem collectGo_filter_eligible (capFiles capLines perFileCap : Nat) (exts : List String) :
    ∀ (fs : List ChangedFile) (files : List CollectedFile) (totalLines : Nat),
      collectGo capFiles capLines perFileCap exts files totalLines fs =
        collectGo capFiles capLines perFileCap exts files totalLines
          (fs.filter (eligibleFile exts)) := by
  intro fs
  induction fs with
  | nil => intro files totalLines; rfl
  | cons f rest ih =>
    intro files totalLines
    by_cases hcap : capFiles ≤ files.length
    · rw [collectGo_capped capFiles capLines perFileCap exts files totalLines _ hcap,
        collectGo_capped capFiles capLines perFileCap exts files totalLines _ hcap]
    by_cases helig : eligibleFile exts f = true
    · have hskip := eligible_true_skip exts f helig
      have htrim := eligible_true_trim exts f helig
      rw [List.filter_cons, if_pos helig]
      by_cases hbreak : capLines < totalLines +
          numLines (trimPatchLines (reducePatch ((f.patch).getD "")) perFileCap) ∧
          capLines - totalLines = 0
      · rw [collectGo_step_break capFiles capLines perFileCap exts files totalLines f rest
            hcap hskip htrim hbreak,
          collectGo_step_break capFiles capLines perFileCap exts files totalLines f _
            hcap hskip htrim hbreak]
      · rw [collectGo_step_push capFiles capLines perFileCap exts files totalLines f rest
            hcap hskip htrim hbreak,
          collectGo_step_push capFiles capLines perFileCap exts files totalLines f _
            hcap hskip htrim hbreak]
        by_cases hstop : capFiles ≤ (files ++ [(⟨f.filename, f.status, f.additions,
            f.deletions, collectPatch2 capLines perFileCap totalLines f⟩ :
            CollectedFile)]).length ∨
            capLines ≤ totalLines + numLines (collectPatch2 capLines perFileCap totalLines f)
        · rw [if_pos hstop, if_pos hstop]
        · rw [if_neg hstop, if_neg hstop]
          exact ih _ _
    · have helig' : eligibleFile exts f = false := by simpa using helig
      rw [List.filter_cons, if_neg helig]
      rcases eligible_false_cases exts f helig' with hskip | ⟨hskip, htrim⟩
      · rw [collectGo_step_skip capFiles capLines perFileCap exts files totalLines f rest
          hcap hskip]
        exact ih files totalLines
      · rw [collectGo_step_empty capFiles capLines perFileCap exts files totalLines f rest
          hcap hskip htrim]
        exact ih files totalLines

theorem collectGo_status_not_removed (capFiles capLines perFileCap : Nat)
    (exts : List String) :
    ∀ (fs : List ChangedFile) (files : List CollectedFile) (totalLines : Nat),
      (∀ cf ∈ files, cf.status ≠ "removed") →
      ∀ cf ∈ (collectGo capFiles capLines perFileCap exts files totalLines fs).files,
        cf.status ≠ "removed" := by
  intro fs
  induction fs with
  | nil => intro files totalLines hst; exact hst
  | cons f rest ih =>
    intro files totalLines hst
    by_cases hcap : capFiles ≤ files.length
    · rw [collectGo_capped capFiles capLines perFileCap exts files totalLines _ hcap]
      exact hst
    by_cases hskip : (isBinaryOrLarge f || !hasRiskyExt exts f.filename) = true
    · rw [collectGo_step_skip capFiles capLines perFileCap exts files totalLines f rest
        hcap hskip]
      exact ih files totalLines hst
    have hskip' : (isBinaryOrLarge f || !hasRiskyExt exts f.filename) = false := by
      simpa using hskip
    have hnotremoved : f.status ≠ "removed" := by
      simp only [isBinaryOrLarge, Bool.or_eq_false_iff] at hskip'
      have := hskip'.1
      simp only [Bool.or_eq_false_iff] at this
      intro h
      have h2 := this.1
      rw [h] at h2
      simp at h2
    have hst' : ∀ (p : String) (cf : CollectedFile),
        cf ∈ files ++ [(⟨f.filename, f.status, f.additions, f.deletions, p⟩ :
          CollectedFile)] → cf.status ≠ "removed" := by
      intro p cf hcf
      rcases List.mem_append.mp hcf with hcf | hcf
      · exact hst cf hcf
      · have : cf = ⟨f.filename, f.status, f.additions, f.deletions, p⟩ :=
          List.mem_singleton.mp hcf
        rw [this]
        exact hnotremoved
    by_cases htrim : jsTrim (reducePatch ((f.patch).getD "")) = ""
    · rw [collectGo_step_empty capFiles capLines perFileCap exts files totalLines f rest
        hcap hskip' htrim]
      exact ih files totalLines hst
    by_cases hbreak : capLines < totalLines +
        numLines (trimPatchLines (reducePatch ((f.patch).getD "")) perFileCap) ∧
        capLines - totalLines = 0
    · rw [collectGo_step_break capFiles capLines perFileCap exts files totalLines f rest
        hcap hskip' htrim hbreak]
      exact hst
    rw [collectGo_step_push capFiles capLines perFileCap exts files totalLines f rest
      hcap hskip' htrim hbreak]
    by_cases hstop : capFiles ≤ (files ++ [(⟨f.filename, f.status, f.additions,
        f.deletions, collectPatch2 capLines perFileCap totalLines f⟩ :
        CollectedFile)]).length ∨
        capLines ≤ totalLines + numLines (collectPatch2 capLines perFileCap totalLines f)
    · rw [if_pos hstop]
      exact fun cf hcf => hst' _ cf hcf
    · rw [if_neg hstop]
      exact ih _ _ (fun cf hcf => hst' _ cf hcf)

/-- Claim C2: a changed file whose status is `"removed"`, whose patch is
absent, whose extension (substring after the final `.`, lower-cased) is not in
the allow-list, or whose reduced patch is empty after filtering, is never
present in the output of `listChangedFiles`: removing all such files from the
input leaves the result unchanged (they are transparent to the collector),
and, in particular, every collected file's own status differs from
`"removed"`. -/
theorem c2_ineligible_never_collected (fs : List ChangedFile)
    (capFiles capLines perFileCap : Nat) (exts : List String) :
    listChangedFiles fs capFiles capLines perFileCap exts =
      listChangedFiles (fs.filter (eligibleFile exts)) capFiles capLines perFileCap exts ∧
    ∀ cf ∈ (listChangedFiles fs capFiles capLines perFileCap exts).files,
      cf.status ≠ "removed" :=
  ⟨collectGo_filter_eligible capFiles capLines perFileCap exts fs [] 0,
    collectGo_status_not_removed capFiles capLines perFileCap exts fs [] 0 (by simp)⟩

/-- Witness for claim C2 at a concrete input: the single file collected from
`capOverflowFile` does not carry status `"removed"`. -/
theorem c2_ineligible_never_collected_witness :
    (⟨"a.py", "modified", 3, 0, "\n"⟩ : CollectedFile).status ≠ "removed" :=
  (c2_ineligible_never_collected [capOverflowFile] 30 1 1 ["py"]).2
    ⟨"a.py", "modified", 3, 0, "\n"⟩ (by decide)

/-- Claim C7: the reduction step keeps exactly the lines prefixed `@@`, `+` or
`-` (the `keepLine` predicate, spelled with the source's `startsWith` calls),
in their original order (the kept lines form a sublist of the original
lines), and drops everything else; when nothing is kept the reduced patch is
the empty string, whose single split field is `""`.  Concretely, under caps
file=30/line=1200/perfile=300 the collector returns one `CollectedFile` for
`scenarioAFile` whose patch is exactly the `@@` header plus the 3 changed
lines. -/
theorem c7_reduce_and_scenario_a :
    (∀ p : String,
      splitNl (reducePatch p) =
        (if ((splitNl p).filter keepLine).isEmpty then [""]
          else (splitNl p).filter keepLine) ∧
      List.Sublist ((splitNl p).filter keepLine) (splitNl p)) ∧
    (listChangedFiles [scenarioAFile] 30 1200 300 defaultRiskyExts).files.map
        (fun cf => splitNl cf.patch) =
      [["@@ -1,4 +1,5 @@", "+add1", "+add2", "-del1"]] := by
  constructor
  · intro p
    constructor
    · by_cases hemp : ((splitNl p).filter keepLine).isEmpty = true
      · rw [if_pos hemp]
        rw [List.isEmpty_iff] at hemp
        rw [reducePatch, hemp]
        rfl
      · rw [if_neg hemp]
        rw [List.isEmpty_iff] at hemp
        exact splitNl_joinNl _ hemp (fun l hl =>
          mem_splitNl_no_newline p l (List.mem_of_mem_filter hl))
    · exact List.filter_sublist (splitNl p)
  · decide

/-- Claim C8: whenever the collector returns no eligible files, the run's
effect trace is exactly one comment upsert whose content is the literal
`"No eligible code changes."` — no chat-completion request is issued and
nothing follows. -/
theorem c8_no_eligible_files (fs : List ChangedFile) (capFiles capLines perFileCap : Nat)
    (exts : List String) (analysis : String) (findings : List Finding)
    (h : (listChangedFiles fs capFiles capLines perFileCap exts).files = []) :
    runSuccessEvents fs capFiles capLines perFileCap exts analysis findings =
      [RunEvent.upsertComment "No eligible code changes."] ∧
    ∀ m, RunEvent.chatRequest m ∉
      runSuccessEvents fs capFiles capLines perFileCap exts analysis findings := by
  have hlen : (listChangedFiles fs capFiles capLines perFileCap exts).files.length = 0 := by
    rw [h]
    rfl
  have heq : runSuccessEvents fs capFiles capLines perFileCap exts analysis findings =
      [RunEvent.upsertComment "No eligible code changes."] := by
    simp only [runSuccessEvents]
    rw [if_pos hlen]
  refine ⟨heq, ?_⟩
  intro m
  rw [heq]
  simp

/-- Witness for claim C8 at a concrete input: an empty file list collects
nothing, and the run posts exactly the fixed message. -/
theorem c8_no_eligible_files_witness :
    runSuccessEvents [] 30 1200 300 defaultRiskyExts "model output" [] =
      [RunEvent.upsertComment "No eligible code changes."] :=
  (c8_no_eligible_files [] 30 1200 300 defaultRiskyExts "model output" [] (by decide)).1

/-- Claim C9: the findings summary renders exactly `min(limit, n)` entries,
is the empty string when there are no findings, has no trailing note when
`n ≤ limit`, and ends with `…and N more.` with `N = n − limit` exactly when
`n > limit`. -/
theorem c9_gitleaks_summary (findings : List Finding) (limit : Nat) :
    ((findings.take limit).map renderFinding).length = min limit findings.length ∧
    (findings.length = 0 → summarizeGitLeaks findings limit = "") ∧
    (findings.length ≠ 0 → findings.length ≤ limit →
      summarizeGitLeaks findings limit =
        "### 🔑 GitLeaks Findings\n" ++ joinNl ((findings.take limit).map renderFinding)) ∧
    (limit < findings.length →
      summarizeGitLeaks findings limit =
        "### 🔑 GitLeaks Findings\n" ++ joinNl ((findings.take limit).map renderFinding) ++
          ("\n…and " ++ toString (findings.length - limit) ++ " more.")) := by
  refine ⟨by simp, ?_, ?_, ?_⟩
  · intro h
    simp only [summarizeGitLeaks]
    rw [if_pos h]
  · intro hne hle
    simp only [summarizeGitLeaks]
    rw [if_neg hne, if_neg (Nat.not_lt.mpr hle)]
    have : ∀ s : String, s ++ "" = s := by
      intro s
      cases s
      show String.mk (_ ++ []) = _
      simp
    exact this _
  · intro hlt
    simp only [summarizeGitLeaks]
    rw [if_neg (by omega), if_pos hlt]

/-- Witness for claim C9 at a concrete input: three findings with display
limit 2 render two entries and the `…and 1 more.` note. -/
theorem c9_gitleaks_summary_witness :
    summarizeGitLeaks demoFindings 2 =
      "### 🔑 GitLeaks Findings\n- `config/.env` line 12: **generic-api-key**\n- `src/db.js` line 3: **aws-access-token**\n…and 1 more." :=
  ((c9_gitleaks_summary demoFindings 2).2.2.2 (by decide)).trans (by decide)

/-- Claim C5: `callOpenAI` raises the quota condition exactly on HTTP 429,
raises the generic upstream condition carrying the status and body exactly on
any other non-success status, and on success returns the trimmed first-choice
text, or `""` when the response carries no choice — all as a function of one
response (single attempt, no retry). -/
theorem c5_callOpenAI (resp : ChatResponse) :
    (callOpenAI resp = ReviewOutcome.quotaExceeded ↔ resp.status = 429) ∧
    (callOpenAI resp = ReviewOutcome.upstreamError resp.status resp.body ↔
      (resp.status ≠ 429 ∧ respOk resp.status = false)) ∧
    (∀ s, respOk resp.status = true → resp.choices.headD none = some s →
      callOpenAI resp = ReviewOutcome.ok (jsTrim s)) ∧
    (respOk resp.status = true → resp.choices.headD none = none →
      callOpenAI resp = ReviewOutcome.ok "") ∧
    (respOk resp.status = true → resp.status ≠ 429) := by
  have h429ok : respOk resp.status = true → resp.status ≠ 429 := by
    intro hok
    simp only [respOk, Bool.and_eq_true, decide_eq_true_eq] at hok
    omega
  refine ⟨?_, ?_, ?_, ?_, h429ok⟩
  · constructor
    · intro h
      by_cases h429 : resp.status = 429
      · exact h429
      · exfalso
        rw [callOpenAI, if_neg h429] at h
        by_cases hok : respOk resp.status = true
        · rw [if_neg (by simp [hok])] at h
          exact ReviewOutcome.noConfusion h
        · rw [if_pos (by simp [Bool.not_eq_true] at hok; simp [hok])] at h
          exact ReviewOutcome.noConfusion h
    · intro h429
      rw [callOpenAI, if_pos h429]
  · constructor
    · intro h
      by_cases h429 : resp.status = 429
      · rw [callOpenAI, if_pos h429] at h
        exact absurd h (by simp)
      · refine ⟨h429, ?_⟩
        by_cases hok : respOk resp.status = true
        · rw [callOpenAI, if_neg h429, if_neg (by simp [hok])] at h
          exact absurd h (by simp)
        · simpa using hok
    · rintro ⟨h429, hok⟩
      rw [callOpenAI, if_neg h429, if_pos (by simp [hok])]
  · intro s hok hs
    rw [callOpenAI, if_neg (h429ok hok), if_neg (by simp [hok]), hs]
    rw [show Option.map jsTrim (some s) = some (jsTrim s) from rfl]
    have : jsOrStr (some (jsTrim s)) "" = jsTrim s := by
      simp only [jsOrStr]
      by_cases ht : jsTrim s = ""
      · rw [if_pos ht, ht]
      · rw [if_neg ht]
    rw [this]
  · intro hok hs
    rw [callOpenAI, if_neg (h429ok hok), if_neg (by simp [hok]), hs]
    rfl

/-- Witness for claim C5 at a concrete response: status 200 with one choice
whose content is `"  hello  "` yields the trimmed text `"hello"`. -/
theorem c5_callOpenAI_witness :
    callOpenAI ⟨200, "", [some "  hello  "]⟩ = ReviewOutcome.ok "hello" :=
  ((c5_callOpenAI ⟨200, "", [some "  hello  "]⟩).2.2.1 "  hello  " (by decide) rfl).trans
    (by decide)

/-- Claim C4 (counterexample): when the best-effort failure comment itself
fails (here: the deadline passed, so `abortIfTimeUp` inside `upsertPRComment`
throws), the catch block re-raises before reaching `core.setFailed` — no hard
failure is signalled, refuting "signaling failure must not itself throw even
when the comment post also fails". -/
theorem c4_top_level_failure_counterexample :
    runCatch "Error: boom" (some 7) (fun _ => Except.error "TIME_BUDGET_EXCEEDED") =
      CatchOutcome.rethrew "TIME_BUDGET_EXCEEDED" := rfl

/-- Claim C4 (amended): for every failure with a pull-request number in
context (every failure except the missing-pull-request-context one), the catch
block attempts the failure comment — the billing wording exactly when the
error's string form contains the quota token, the generic wording with the
error text otherwise — and then signals hard failure via `setFailed` when the
comment post succeeds; with no pull-request number it signals failure without
a comment; but when the comment post itself fails, its error propagates and
`setFailed` is never reached. -/
theorem c4_top_level_failure_handling (errStr : String) (n : Nat)
    (upsert : String → Except String Unit) :
    (upsert (failureComment errStr) = Except.ok () →
      runCatch errStr (some n) upsert =
        CatchOutcome.failedSignaled errStr (some (failureComment errStr))) ∧
    (∀ e, upsert (failureComment errStr) = Except.error e →
      runCatch errStr (some n) upsert = CatchOutcome.rethrew e) ∧
    (runCatch errStr none upsert = CatchOutcome.failedSignaled errStr none) ∧
    (jsIncludes errStr quotaToken = true → failureComment errStr = quotaComment) ∧
    (jsIncludes errStr quotaToken = false → failureComment errStr = genericComment errStr) := by
  refine ⟨?_, ?_, rfl, ?_, ?_⟩
  · intro h
    simp only [runCatch, h]
  · intro e h
    simp only [runCatch, h]
  · intro h
    simp only [failureComment, h, if_true]
  · intro h
    simp only [failureComment, h, Bool.false_eq_true, if_false]

/-- Witness for the amended claim C4: with a posting oracle that succeeds, the
handler posts the generic comment for `"boom"` and reaches `setFailed`. -/
theorem c4_top_level_failure_handling_witness :
    runCatch "boom" (some 1) (fun _ => Except.ok ()) =
      CatchOutcome.failedSignaled "boom" (some (failureComment "boom")) :=
  (c4_top_level_failure_handling "boom" 1 (fun _ => Except.ok ())).1 rfl

/-- Helper for the quota-token claims: a JavaScript `includes` always finds a
substring that occurs between two others. -/
theorem jsIncludes_append_mid (a sub b : String) : jsIncludes (a ++ sub ++ b) sub = true := by
  unfold jsIncludes
  rw [show (a ++ sub ++ b).data = a.data ++ sub.data ++ b.data from rfl]
  exact containsSeq_append_mid a.data sub.data b.data

/-- Claim C10: the catch block classifies quota exhaustion by substring search
on the error's string rendering, so every error string containing
`OPENAI_INSUFFICIENT_QUOTA` — in particular an upstream error whose embedded
HTTP response body happens to contain that token — triggers the specialized
billing comment rather than the generic one. -/
theorem c10_quota_substring_classification (errStr : String) (n status : Nat)
    (a b : String) :
    (jsIncludes errStr quotaToken = true →
      runCatch errStr (some n) (fun _ => Except.ok ()) =
        CatchOutcome.failedSignaled errStr (some quotaComment)) ∧
    jsIncludes (upstreamErrString status (a ++ quotaToken ++ b)) quotaToken = true ∧
    runCatch (upstreamErrString status (a ++ quotaToken ++ b)) (some n)
        (fun _ => Except.ok ()) =
      CatchOutcome.failedSignaled (upstreamErrString status (a ++ quotaToken ++ b))
        (some quotaComment) := by
  have hquota : ∀ (e : String), jsIncludes e quotaToken = true →
      runCatch e (some n) (fun _ => Except.ok ()) =
        CatchOutcome.failedSignaled e (some quotaComment) := by
    intro e he
    simp only [runCatch, failureComment, he, if_true]
  have hsassoc : ∀ x y z : String, (x ++ y) ++ z = x ++ (y ++ z) := by
    intro x y z
    apply String.ext
    show (x.data ++ y.data) ++ z.data = x.data ++ (y.data ++ z.data)
    exact List.append_assoc x.data y.data z.data
  have hmid : jsIncludes (upstreamErrString status (a ++ quotaToken ++ b)) quotaToken = true := by
    have hassoc : upstreamErrString status (a ++ quotaToken ++ b) =
        (("Error: OpenAI HTTP " ++ toString status ++ ": ") ++ a) ++ quotaToken ++ b := by
      simp only [upstreamErrString, hsassoc]
    rw [hassoc]
    exact jsIncludes_append_mid _ quotaToken b
  exact ⟨hquota errStr, hmid, hquota _ hmid⟩

/-- Witness for claim C10: a concrete 500 upstream error whose response body
embeds the quota token is classified as quota exhaustion and the billing
comment is posted. -/
theorem c10_quota_substring_classification_witness :
    runCatch (upstreamErrString 500 ("insufficient_quota: " ++ quotaToken ++ " for org"))
        (some 3) (fun _ => Except.ok ()) =
      CatchOutcome.failedSignaled
        (upstreamErrString 500 ("insufficient_quota: " ++ quotaToken ++ " for org"))
        (some quotaComment) :=
  (c10_quota_substring_classification "unused" 3 500 "insufficient_quota: " " for org").2.2

/-- Claim C6 (counterexample): the comment create issued by `upsertPRComment`
is covered only by the check at the publisher's entry; when the deadline
passes while the comment listing is in flight (entry at the deadline, listing
taking 5 time units), the create call starts at time 15, strictly past the
deadline 10 — an external call is issued past the deadline, refuting the
claim for comment create/update. -/
theorem c6_deadline_checks_counterexample :
    upsertCalls 10 10 5 false =
      Except.ok [⟨ExtCall.listComments, 10⟩, ⟨ExtCall.createComment, 15⟩] ∧
    10 < (⟨ExtCall.createComment, 15⟩ : TimedCall).start := ⟨rfl, by decide⟩

/-- Claim C6 (amended): the deadline check runs immediately before each
file-list page fetch, before the chat-completion request and before the
comment listing, so none of those ever starts past the deadline; the comment
create/update that follows the listing inside `upsertPRComment` is guarded
only by the check at the publisher's entry, so it can start after the
deadline has passed during the listing (in-flight calls are never aborted). -/
theorem c6_deadline_checks_amended :
    (∀ (deadline t : Nat) (ds : List Nat) (trace : List TimedCall),
      pagedListCalls deadline t ds = Except.ok trace →
      ∀ tc ∈ trace, tc.start ≤ deadline) ∧
    (∀ (deadline t : Nat) (trace : List TimedCall),
      chatCalls deadline t = Except.ok trace →
      ∀ tc ∈ trace, tc.start ≤ deadline) ∧
    (∀ (deadline t d : Nat) (found : Bool) (trace : List TimedCall),
      upsertCalls deadline t d found = Except.ok trace →
      t ≤ deadline ∧ (⟨ExtCall.listComments, t⟩ : TimedCall) ∈ trace) := by
  refine ⟨?_, ?_, ?_⟩
  · intro deadline t ds
    induction ds generalizing t with
    | nil =>
      intro trace h tc htc
      simp only [pagedListCalls] at h
      rcases h
      exact absurd htc (by simp)
    | cons d ds ih =>
      intro trace h tc htc
      simp only [pagedListCalls] at h
      by_cases hd : deadline < t
      · rw [if_pos hd] at h
        exact Except.noConfusion h
      · rw [if_neg hd] at h
        cases hrec : pagedListCalls deadline (t + d) ds with
        | error e => rw [hrec] at h; exact Except.noConfusion h
        | ok rest =>
          rw [hrec] at h
          have htrace : trace = ⟨ExtCall.listFilesPage, t⟩ :: rest := by
            cases h
            rfl
          rw [htrace] at htc
          rcases List.mem_cons.mp htc with hh | hh
          · rw [hh]
            exact Nat.not_lt.mp hd
          · exact ih (t + d) rest hrec tc hh
  · intro deadline t trace h tc htc
    simp only [chatCalls] at h
    by_cases hd : deadline < t
    · rw [if_pos hd] at h
      exact Except.noConfusion h
    · rw [if_neg hd] at h
      have htrace : trace = [⟨ExtCall.chatCompletion, t⟩] := by
        cases h
        rfl
      rw [htrace] at htc
      rcases List.mem_singleton.mp htc with hh
      rw [hh]
      exact Nat.not_lt.mp hd
  · intro deadline t d found trace h
    simp only [upsertCalls] at h
    by_cases hd : deadline < t
    · rw [if_pos hd] at h
      exact Except.noConfusion h
    · rw [if_neg hd] at h
      have htrace : trace = [⟨ExtCall.listComments, t⟩,
          ⟨if found then ExtCall.updateComment else ExtCall.createComment, t + d⟩] := by
        cases h
        rfl
      rw [htrace]
      exact ⟨Nat.not_lt.mp hd, by simp⟩

/-- Witness for the amended claim C6 at concrete times: a two-page listing
within the budget produces page fetches at times 0 and 10, both at or before
the deadline 100. -/
theorem c6_deadline_checks_amended_witness :
    (⟨ExtCall.listFilesPage, 10⟩ : TimedCall).start ≤ 100 :=
  (c6_deadline_checks_amended).1 100 0 [10, 20]
    [⟨ExtCall.listFilesPage, 0⟩, ⟨ExtCall.listFilesPage, 10⟩] rfl
    ⟨ExtCall.listFilesPage, 10⟩ (by decide)

/-- Every body composed by `upsertPRComment` contains the marker tag. -/
theorem hasTag_composeBody (id : Nat) (c : String) :
    hasTag ⟨id, some (composeBody c)⟩ = true := by
  simp only [hasTag]
  have hassoc : ∀ x y z : String, (x ++ y) ++ z = x ++ (y ++ z) := by
    intro x y z
    apply String.ext
    show (x.data ++ y.data) ++ z.data = x.data ++ (y.data ++ z.data)
    exact List.append_assoc x.data y.data z.data
  have h : composeBody c =
      "## 🔐 Secure Code Review (AI)\n" ++ COMMENT_TAG ++
        ("\n\n" ++ (c ++ "\n\n---\n_Models can make mistakes. Verify before merging._")) := by
    simp only [composeBody, hassoc]
  rw [h]
  exact jsIncludes_append_mid "## 🔐 Secure Code Review (AI)\n" COMMENT_TAG _

/-- Updating by a comment id that no listed comment carries leaves those
comments unchanged. -/
theorem map_update_id_not_mem (comments : List PRComment) (id1 : Nat) (body : String)
    (hid : ∀ c ∈ comments, c.id ≠ id1) :
    comments.map (fun c => if c.id = id1 then (⟨c.id, some body⟩ : PRComment) else c) =
      comments := by
  induction comments with
  | nil => rfl
  | cons a as ih =>
    simp only [List.map_cons]
    rw [if_neg (hid a (List.mem_cons_self a as)),
      ih (fun c hc => hid c (List.mem_cons_of_mem a hc))]

/-- Claim C3: `upsertPRComment` maintains at most one marker-tagged comment.
Starting from a comment list that fits in the single listed page (≤ 99
comments), carries no marker-tagged comment, and does not already use the id
the platform assigns to the created comment, running the publisher twice
leaves the original comments untouched and exactly one marker-tagged comment,
in place (same id, same position), whose body is the one composed from the
second run's content. -/
theorem c3_upsert_idempotent (comments : List PRComment) (id1 id2 : Nat) (c1 c2 : String)
    (hlen : comments.length ≤ 99)
    (hnotag : ∀ c ∈ comments, hasTag c = false)
    (hfresh : ∀ c ∈ comments, c.id ≠ id1) :
    upsertPRComment (upsertPRComment comments id1 c1) id2 c2 =
      comments ++ [⟨id1, some (composeBody c2)⟩] ∧
    ((upsertPRComment (upsertPRComment comments id1 c1) id2 c2).filter hasTag).length
      = 1 := by
  have hfind0 : (comments.take 100).find? hasTag = none :=
    List.find?_eq_none.mpr (fun x hx => by
      have := hnotag x (List.mem_of_mem_take hx)
      simp [this])
  have h1 : upsertPRComment comments id1 c1 =
      comments ++ [⟨id1, some (composeBody c1)⟩] := by
    unfold upsertPRComment
    rw [hfind0]
  have htake : (comments ++ [(⟨id1, some (composeBody c1)⟩ : PRComment)]).take 100 =
      comments ++ [⟨id1, some (composeBody c1)⟩] := by
    apply List.take_of_length_le
    simp only [List.length_append, List.length_singleton]
    omega
  have hfindcomments : comments.find? hasTag = none :=
    List.find?_eq_none.mpr (fun x hx => by
      have := hnotag x hx
      simp [this])
  have hfind1 : (comments ++ [(⟨id1, some (composeBody c1)⟩ : PRComment)]).find? hasTag =
      some ⟨id1, some (composeBody c1)⟩ := by
    rw [List.find?_append, hfindcomments]
    simp [List.find?, hasTag_composeBody]
  have h2 : upsertPRComment (comments ++ [⟨id1, some (composeBody c1)⟩]) id2 c2 =
      comments ++ [⟨id1, some (composeBody c2)⟩] := by
    unfold upsertPRComment
    rw [htake, hfind1]
    simp only [List.map_append]
    rw [map_update_id_not_mem comments id1 (composeBody c2) hfresh]
    simp
  have heq : upsertPRComment (upsertPRComment comments id1 c1) id2 c2 =
      comments ++ [⟨id1, some (composeBody c2)⟩] := by
    rw [h1, h2]
  refine ⟨heq, ?_⟩
  rw [heq, List.filter_append]
  rw [List.filter_eq_nil_iff.mpr (fun x hx => by
    have := hnotag x hx
    simp [this])]
  simp [List.filter, hasTag_composeBody]

/-- Witness for claim C3 at a concrete input: starting from a pull request
with no comments, two runs leave exactly one tagged comment whose body is the
second run's. -/
theorem c3_upsert_idempotent_witness :
    upsertPRComment (upsertPRComment [] 1 "first") 2 "second" =
      [⟨1, some (composeBody "second")⟩] ∧
    ((upsertPRComment (upsertPRComment [] 1 "first") 2 "second").filter hasTag).length
      = 1 := by
  have h := c3_upsert_idempotent [] 1 2 "first" "second" (by decide)
    (by intro c hc; exact absurd hc (by simp))
    (by intro c hc; exact absurd hc (by simp))
  simpa using h
